import Mathlib

/-!
Verification of the decision core of the chess bot in `strategies.py`.

The rules engine (python-chess) is external: it is modelled as an abstract
interface `Board` exposing exactly the operations the source code consumes
(legal-move enumeration, functional child construction for the
`copy.deepcopy` + `push` idiom, side to move, piece counts, check/checkmate
predicates, the textual move identifier used by `ComboEngine`'s sort, and
the `Move.drop` attribute read by `BertEngine`'s cache-invalidation test).
Scores are rationals, since the piece table contains the value 3.5.
-/

namespace ChessBot

inductive Color : Type
  | white
  | black
deriving DecidableEq, Repr

inductive Piece : Type
  | king
  | queen
  | bishop
  | knight
  | rook
  | pawn
deriving DecidableEq, Repr

/-- PIECE_VALUES from strategies.py: king 0, queen 9, bishop 3.5, knight 3, rook 5, pawn 1. -/
def PIECE_VALUES : Piece → ℚ
  | .king => 0
  | .queen => 9
  | .bishop => 7 / 2
  | .knight => 3
  | .rook => 5
  | .pawn => 1

/-- chess.PIECE_TYPES of python-chess (pawn, knight, bishop, rook, queen, king);
`eval_board` iterates over it, the order is irrelevant to the sum. -/
def PIECE_TYPES : List Piece := [.pawn, .knight, .bishop, .rook, .queen, .king]

/-- colorFactor from strategies.py: 1 for white, -1 for black. -/
def colorFactor : Color → ℤ
  | .white => 1
  | .black => -1

/-- Abstract interface to the external rules engine (python-chess), holding
exactly the operations the source consumes.  `push` is the functional child
construction used through the `copy.deepcopy(board); newBoard.push(move)`
idiom.  `drop` is the `Move.drop` attribute (the crazyhouse drop piece type,
`None` for ordinary moves).  `is_pawn_move` is modelled from the spec: the
Move data model of the spec exposes whether a move is an irreversible pawn
move; the source never reads it (it reads `drop` instead). -/
structure Board (Pos Move : Type) where
  legal_moves : Pos → List Move
  push : Pos → Move → Pos
  turn : Pos → Color
  pieces : Pos → Piece → Color → Nat
  is_checkmate : Pos → Bool
  is_check : Pos → Bool
  uci : Move → String
  drop : Move → Option Piece
  is_pawn_move : Move → Bool

variable {Pos Move : Type}

/-- The material term of `eval_board`: `(white_score - black_score) *
colorFactor(board.turn)`, the value of the local variable `score` in
`eval_board` before the checkmate/check adjustments. -/
def material_score (B : Board Pos Move) (b : Pos) : ℚ :=
  let white_score := PIECE_TYPES.foldl
    (fun acc p => acc + PIECE_VALUES p * (B.pieces b p Color.white : ℚ)) 0
  let black_score := PIECE_TYPES.foldl
    (fun acc p => acc + PIECE_VALUES p * (B.pieces b p Color.black : ℚ)) 0
  (white_score - black_score) * (colorFactor (B.turn b) : ℚ)

/-- eval_board from strategies.py: material balance oriented to the side to
move; overridden with -999999 on checkmate; 100 subtracted whenever the side
to move is in check (the python `if board.is_check()` is not guarded by
"not checkmate", and checkmate implies check). -/
def eval_board (B : Board Pos Move) (b : Pos) : ℚ :=
  let score := material_score B b
  let score := if B.is_checkmate b then (-999999 : ℚ) else score
  if B.is_check b then score - 100 else score

/-- The `for move in board.legal_moves` loop body of `alphaBetaNegaMax`,
abstracted over the recursive call for the next-lower depth.  Mirrors the
python exactly: `score = -alphaBetaNegaMax(newBoard, depth-1, -beta, -alpha)`;
on `score >= beta` return `beta`; on `score > alpha` raise `alpha`; after the
loop return `alpha`. -/
def abLoop (B : Board Pos Move) (rec : Pos → ℚ → ℚ → ℚ) (b : Pos) :
    List Move → ℚ → ℚ → ℚ
  | [], alpha, _ => alpha
  | m :: ms, alpha, beta =>
    let score := -(rec (B.push b m) (-beta) (-alpha))
    if beta ≤ score then beta
    else if alpha < score then abLoop B rec b ms score beta
    else abLoop B rec b ms alpha beta

/-- alphaBetaNegaMax from strategies.py (depth as the recursion fuel; the
python default arguments are alpha = -999999, beta = 999999). -/
def alphaBetaNegaMax (B : Board Pos Move) : Nat → Pos → ℚ → ℚ → ℚ
  | 0, b, _, _ => eval_board B b
  | d + 1, b, alpha, beta => abLoop B (alphaBetaNegaMax B d) b (B.legal_moves b) alpha beta

/-- The loop body of the legacy `negamax` from strategies.py, abstracted over
the recursive call.  The python pushes the move, recurses with bounds
`(-beta, maxValue)` (note: `maxValue`, not `-alpha`, as the child's beta), and
then calls `board.pop(move)` — but `Board.pop` accepts no positional argument,
so that call raises a TypeError.  If the recursive call itself raises, the
exception propagates; either way the first iteration raises. -/
def negamaxLoop (B : Board Pos Move) (rec : Pos → ℚ → ℚ → Except String ℚ) (b : Pos) :
    List Move → ℚ → ℚ → ℚ → Except String ℚ
  | [], maxValue, _, _ => .ok maxValue
  | m :: _, maxValue, _, beta =>
    match rec (B.push b m) (-beta) maxValue with
    | .error e => .error e
    | .ok _ => .error "TypeError: pop takes 1 positional argument but 2 were given"

/-- negamax from strategies.py (the legacy, unused search).  `maxValue` is
initialized to -999999; the `alpha` parameter is never used by the body. -/
def negamax (B : Board Pos Move) : Nat → Pos → ℚ → ℚ → Except String ℚ
  | 0, b, _, _ => .ok (eval_board B b)
  | d + 1, b, _alpha, beta => negamaxLoop B (negamax B d) b (B.legal_moves b) (-999999) _alpha beta

/-- Modelled from the spec: the "exhaustive, unpruned full-width negamax over
the same game tree" that the alpha-beta equivalence property compares
against.  Leaves evaluate through `eval_board`; an inner node takes the
maximum of the negated child values, starting from the full-width floor
-999999 (the initialization the repository's own unpruned `negamax` uses),
which also covers positions with no legal moves. -/
def fullNegamax (B : Board Pos Move) : Nat → Pos → ℚ
  | 0, b => eval_board B b
  | d + 1, b =>
    (B.legal_moves b).foldl (fun acc m => max acc (-(fullNegamax B d (B.push b m)))) (-999999)

/-- The score `BertEngine.search` compares for a root move: `score =
alphaBetaNegaMax(new_board, depth=3)` on the deep-copied child, then
`user_score = score if board.turn == chess.WHITE else -score`. -/
def userScore (B : Board Pos Move) (b : Pos) (m : Move) : ℚ :=
  let score := alphaBetaNegaMax B 3 (B.push b m) (-999999) 999999
  if B.turn b = Color.white then score else -score

/-- The root loop of `BertEngine.search`: tracks `best_score` and the list
`best_moves` of all moves attaining it (reset on strict improvement, appended
on equality, skipped otherwise). -/
def bertLoop (B : Board Pos Move) (b : Pos) :
    List Move → ℚ → List Move → ℚ × List Move
  | [], best, ms => (best, ms)
  | m :: rest, best, ms =>
    let u := userScore B b m
    if best < u then bertLoop B b rest u [m]
    else if u = best then bertLoop B b rest best (ms ++ [m])
    else bertLoop B b rest best ms

/-- The `(best_score, best_moves)` state of `BertEngine.search` after the root
loop, started from `best_score = -999999`, `best_moves = []`. -/
def bertState (B : Board Pos Move) (b : Pos) : ℚ × List Move :=
  bertLoop B b (B.legal_moves b) (-999999) []

def best_score (B : Board Pos Move) (b : Pos) : ℚ := (bertState B b).1

def best_moves (B : Board Pos Move) (b : Pos) : List Move := (bertState B b).2

/-- The move `BertEngine.search` returns: `random.choice(best_moves)`,
modelled by an arbitrary index reduced modulo the list length (uniform over
the list for a uniform index).  `random.choice` on an empty list raises
IndexError, modelled by `none`. -/
def bertBestMove (B : Board Pos Move) (b : Pos) (n : Nat) : Option Move :=
  (best_moves B b)[n % (best_moves B b).length]?

/-- `BertEngine.search` with its full signature.  The `root_moves` parameter
is accepted but never used: the line restricting the loop to `root_moves` is
commented out in the source (`check_moves` is computed from
`board.legal_moves` and dead). -/
def bertSearchFull (B : Board Pos Move) (b : Pos) (root_moves : Option (List Move))
    (n : Nat) : Option Move :=
  bertBestMove B b n

/-- Whether `BertEngine.search` clears the evaluation cache after choosing:
the source tests `best_move.drop == chess.PAWN`, i.e. the crazyhouse drop
piece of the move, which is `None` for every ordinary move. -/
def cacheClearedAfter (B : Board Pos Move) (b : Pos) (n : Nat) : Bool :=
  match bertBestMove B b n with
  | some m => decide (B.drop m = some Piece.pawn)
  | none => false

/-- RandomMove.search: `random.choice(list(board.legal_moves))`, with the
random choice modelled by an index modulo the length; IndexError on an empty
list is modelled by `none`. -/
def randomMoveSearch (B : Board Pos Move) (b : Pos) (n : Nat) : Option Move :=
  (B.legal_moves b)[n % (B.legal_moves b).length]?

/-- The fields of `chess.engine.Limit` that `ComboEngine.search` reads;
`some` models "the field holds an int" (the `isinstance(…, int)` tests). -/
structure TimeLimit where
  time : Option ℤ
  white_clock : Option ℤ
  white_inc : Option ℤ
  black_clock : Option ℤ
  black_inc : Option ℤ

/-- The `(my_time, my_inc)` derivation of `ComboEngine.search`: a fixed total
time takes precedence (with increment 0); otherwise the clock/increment of
the side to move, each defaulting to 0 when not an int. -/
def myTimeInc (B : Board Pos Move) (b : Pos) (tl : TimeLimit) : ℤ × ℤ :=
  match tl.time with
  | some t => (t, 0)
  | none =>
    if B.turn b = Color.white then (tl.white_clock.getD 0, tl.white_inc.getD 0)
    else (tl.black_clock.getD 0, tl.black_inc.getD 0)

/-- Lexicographic order on strings as python compares them: by code point,
a prefix preceding its extensions.  `true` iff the first list is ≤ the
second. -/
def strLeB : List Char → List Char → Bool
  | [], _ => true
  | _ :: _, [] => false
  | c :: cs, d :: ds =>
    if c.toNat < d.toNat then true
    else if d.toNat < c.toNat then false
    else strLeB cs ds

/-- Key comparison used by `possible_moves.sort(key=str)`: lexicographic
order of the moves' textual identifiers. -/
def keyLe (key : Move → String) (a b : Move) : Bool :=
  strLeB (key a).data (key b).data

/-- Insertion of one element into a list sorted by a string key. -/
def insertByKey (key : Move → String) (m : Move) : List Move → List Move
  | [] => [m]
  | x :: xs => if keyLe key m x then m :: x :: xs else x :: insertByKey key m xs

/-- Sorting by a string key (models `possible_moves.sort(key=str)`). -/
def sortByKey (key : Move → String) : List Move → List Move
  | [] => []
  | x :: xs => insertByKey key x (sortByKey key xs)

/-- The eligible moves of `ComboEngine.search`: `root_moves` when it is a
list, all legal moves otherwise. -/
def possibleMoves (B : Board Pos Move) (b : Pos) (root_moves : Option (List Move)) :
    List Move :=
  match root_moves with
  | some l => l
  | none => B.legal_moves b

/-- ComboEngine.search: derive `(my_time, my_inc)`; restrict to `root_moves`
when it is a list, else all legal moves; if `my_time / 60 + my_inc > 10`
(exact rational comparison, `/` being python's true division) pick a random
eligible move (index model), otherwise sort the eligible moves by `str(move)`
(the UCI text) and take the first.  `moves[0]` on an empty list raises,
modelled by `none`. -/
def comboSearch (B : Board Pos Move) (b : Pos) (tl : TimeLimit)
    (root_moves : Option (List Move)) (n : Nat) : Option Move :=
  let my_time := (myTimeInc B b tl).1
  let my_inc := (myTimeInc B b tl).2
  let possible_moves := possibleMoves B b root_moves
  if (10 : ℚ) < (my_time : ℚ) / 60 + (my_inc : ℚ) then
    possible_moves[n % possible_moves.length]?
  else
    (sortByKey B.uci possible_moves)[0]?

/-!
Heap model of the imperative layer.  Python positions are mutable objects;
to settle the frame claim (the caller's position object is unchanged after a
search) the store is modelled explicitly: a map `σ : Nat → Pos` from object
ids to position values together with a fresh-id bound `f` (every id below `f`
is allocated, allocation hands out `f`).  `copy.deepcopy(board)` allocates a
fresh object holding the same value; `newBoard.push(move)` mutates the new
object in place.
-/

/-- The `for move in board.legal_moves` loop of `alphaBetaNegaMax` over the
store: each iteration deep-copies the board into a fresh object, pushes the
move on the copy, and recurses on the copy. -/
def abHGo (B : Board Pos Move)
    (rec : (Nat → Pos) → Nat → Nat → ℚ → ℚ → ℚ × (Nat → Pos) × Nat) (p : Nat) :
    List Move → (Nat → Pos) → Nat → ℚ → ℚ → ℚ × (Nat → Pos) × Nat
  | [], σ, f, alpha, _ => (alpha, σ, f)
  | m :: ms, σ, f, alpha, beta =>
    let np := f
    let σ₁ := Function.update σ np (σ p)
    let σ₂ := Function.update σ₁ np (B.push (σ₁ np) m)
    let res := rec σ₂ (f + 1) np (-beta) (-alpha)
    let score := -res.1
    if beta ≤ score then (beta, res.2.1, res.2.2)
    else if alpha < score then abHGo B rec p ms res.2.1 res.2.2 score beta
    else abHGo B rec p ms res.2.1 res.2.2 alpha beta

/-- alphaBetaNegaMax over the store: takes the id `p` of the caller's board
and returns the score together with the final store and fresh bound. -/
def abH (B : Board Pos Move) : Nat → (Nat → Pos) → Nat → Nat → ℚ → ℚ → ℚ × (Nat → Pos) × Nat
  | 0, σ, f, p, _, _ => (eval_board B (σ p), σ, f)
  | d + 1, σ, f, p, alpha, beta => abHGo B (abH B d) p (B.legal_moves (σ p)) σ f alpha beta

/-- The root loop of `BertEngine.search` over the store: `bp` is the id of
the engine's own copy of the board; each iteration deep-copies it, pushes the
root move, and searches the copy at depth 3 with the default bounds.
`user_score` reads `board.turn` from the store, as the source does. -/
def bertHGo (B : Board Pos Move) (bp : Nat) :
    List Move → (Nat → Pos) → Nat → ℚ → List Move → (ℚ × List Move) × (Nat → Pos) × Nat
  | [], σ, f, best, ms => ((best, ms), σ, f)
  | m :: rest, σ, f, best, ms =>
    let np := f
    let σ₁ := Function.update σ np (σ bp)
    let σ₂ := Function.update σ₁ np (B.push (σ₁ np) m)
    let res := abH B 3 σ₂ (f + 1) np (-999999) 999999
    let score := res.1
    let user := if B.turn (res.2.1 bp) = Color.white then score else -score
    if best < user then bertHGo B bp rest res.2.1 res.2.2 user [m]
    else if user = best then bertHGo B bp rest res.2.1 res.2.2 best (ms ++ [m])
    else bertHGo B bp rest res.2.1 res.2.2 best ms

/-- `BertEngine.search` over the store: `board =
HashableChessBoard(board.fen())` allocates a fresh object holding the
caller's position value (id `bp`), the root loop works on copies of it, and
the returned move is drawn from the final `best_moves`. -/
def bertH (B : Board Pos Move) (σ : Nat → Pos) (f p n : Nat) :
    Option Move × (Nat → Pos) × Nat :=
  let bp := f
  let σ₀ := Function.update σ bp (σ p)
  let res := bertHGo B bp (B.legal_moves (σ₀ bp)) σ₀ (f + 1) (-999999) []
  let ms := res.1.2
  (ms[n % ms.length]?, res.2.1, res.2.2)

/-!
Concrete rules-engine instances used for counterexamples and witnesses.
-/

/-- A two-position game: position `false` (White to move) has exactly one
legal move, leading to position `true`, where the side to move (Black) is
checkmated — a mate-in-one, with no material on the board. -/
def cexB : Board Bool Unit where
  legal_moves := fun b => if b then [] else [()]
  push := fun _ _ => true
  turn := fun b => if b then Color.black else Color.white
  pieces := fun _ _ _ => 0
  is_checkmate := fun b => b
  is_check := fun b => b
  uci := fun _ => "a1b1"
  drop := fun _ => none
  is_pawn_move := fun _ => false

/-- A four-position game on ids 0..3: at the root 0 (White to move) the two
legal moves 0 and 1 lead to positions 1 and 2; position 1 has no reply,
position 2 has the single reply 0 leading to position 3, which has no reply.
Both moves are pawn moves; neither is a drop; no checks anywhere. -/
def bertB : Board Nat Nat where
  legal_moves := fun p => if p = 0 then [0, 1] else if p = 2 then [0] else []
  push := fun p m => if p = 0 then m + 1 else 3
  turn := fun p => if p = 0 then Color.white else Color.black
  pieces := fun _ _ _ => 0
  is_checkmate := fun _ => false
  is_check := fun _ => false
  uci := fun m => if m = 0 then "a2a3" else "b2b3"
  drop := fun _ => none
  is_pawn_move := fun _ => true

/-- A Limit with 601 seconds of fixed total time. -/
def tl601 : TimeLimit := ⟨some 601, none, none, none, none⟩

/-- A Limit with 600 seconds of fixed total time (exactly at the threshold). -/
def tl600 : TimeLimit := ⟨some 600, none, none, none, none⟩

/-- Soundness relation between the pruned and the unpruned search at one
depth, in the fail-hard form: within the bounds the pruned value is exact,
outside them it is clamped to the violated bound.  The bounds hypotheses
−999999 ≤ α < β ≤ 999999 are the ones that actually occur in every
recursive call issued from a full-width root invocation. -/
def ABSound (B : Board Pos Move) (d : Nat) : Prop :=
  ∀ (b : Pos) (alpha beta : ℚ), -999999 ≤ alpha → alpha < beta → beta ≤ 999999 →
    (fullNegamax B d b ≤ alpha → alphaBetaNegaMax B d b alpha beta ≤ alpha) ∧
    (beta ≤ fullNegamax B d b → beta ≤ alphaBetaNegaMax B d b alpha beta) ∧
    (alpha < fullNegamax B d b → fullNegamax B d b < beta →
      alphaBetaNegaMax B d b alpha beta = fullNegamax B d b)


/-!
Helper lemmas about folding `max` over a list, the shape shared by the
unpruned negamax value and by BertEngine's running best score.
-/

section FoldMaxLemmas

variable {α : Type} (g : α → ℚ)

theorem foldl_max_init_le :
    ∀ (l : List α) (a : ℚ), a ≤ l.foldl (fun x m => max x (g m)) a
  | [], _ => le_refl _
  | m :: ms, a => le_trans (le_max_left a (g m)) (foldl_max_init_le ms _)

theorem foldl_max_shift :
    ∀ (l : List α) (a c : ℚ),
      l.foldl (fun x m => max x (g m)) (max a c) =
        max a (l.foldl (fun x m => max x (g m)) c)
  | [], _, _ => rfl
  | m :: ms, a, c => by
    simp only [List.foldl]
    rw [max_assoc]
    exact foldl_max_shift ms a (max c (g m))

theorem foldl_max_elem_le :
    ∀ (l : List α) (a : ℚ) (m : α), m ∈ l → g m ≤ l.foldl (fun x m => max x (g m)) a := by
  intro l
  induction l with
  | nil => intro a m hm; cases hm
  | cons x xs ih =>
    intro a m hm
    rcases List.mem_cons.mp hm with h | h
    · subst h
      exact le_trans (le_max_right a (g m)) (foldl_max_init_le g xs _)
    · exact ih _ m h

theorem foldl_max_eq_init_or_mem :
    ∀ (l : List α) (a : ℚ),
      l.foldl (fun x m => max x (g m)) a = a ∨
        ∃ m ∈ l, l.foldl (fun x m => max x (g m)) a = g m := by
  intro l
  induction l with
  | nil => intro a; exact Or.inl rfl
  | cons x xs ih =>
    intro a
    rcases ih (max a (g x)) with h | ⟨m, hm, he⟩
    · rcases le_total (g x) a with hxa | hxa
      · exact Or.inl (by simp only [List.foldl]; rw [h, max_eq_left hxa])
      · exact Or.inr ⟨x, List.mem_cons_self x xs,
          by simp only [List.foldl]; rw [h, max_eq_right hxa]⟩
    · exact Or.inr ⟨m, List.mem_cons_of_mem x hm, by simp only [List.foldl]; exact he⟩

end FoldMaxLemmas

/-- The alpha-beta loop never leaves the `[alpha, beta]` window: it returns
`beta` on a cutoff and otherwise the running alpha, which only ever rises to
scores strictly below `beta`. -/
theorem abLoop_range (B : Board Pos Move) (rec : Pos → ℚ → ℚ → ℚ) (b : Pos) :
    ∀ (ms : List Move) (alpha beta : ℚ), alpha ≤ beta →
      alpha ≤ abLoop B rec b ms alpha beta ∧ abLoop B rec b ms alpha beta ≤ beta := by
  intro ms
  induction ms with
  | nil => intro alpha beta h; exact ⟨le_refl _, h⟩
  | cons m ms ih =>
    intro alpha beta h
    simp only [abLoop]
    by_cases h1 : beta ≤ -rec (B.push b m) (-beta) (-alpha)
    · simp only [if_pos h1]
      exact ⟨h, le_refl _⟩
    · simp only [if_neg h1]
      by_cases h2 : alpha < -rec (B.push b m) (-beta) (-alpha)
      · simp only [if_pos h2]
        have := ih (-rec (B.push b m) (-beta) (-alpha)) beta (le_of_not_le h1)
        exact ⟨le_trans (le_of_lt h2) this.1, this.2⟩
      · simp only [if_neg h2]
        exact ih alpha beta h

theorem absound_zero (B : Board Pos Move) : ABSound B 0 :=
  fun _ _ _ _ _ _ => ⟨fun h => h, fun h => h, fun _ _ => rfl⟩

/-- The key invariant of the alpha-beta loop: given soundness of the search
one ply deeper, the loop computes the minimum of `beta` and the fold of
`max` over the true (unpruned) child scores started at `alpha`. -/
theorem abLoop_min (B : Board Pos Move) (d : Nat) (hd : ABSound B d) :
    ∀ (ms : List Move) (b : Pos) (alpha beta : ℚ),
      -999999 ≤ alpha → alpha < beta → beta ≤ 999999 →
      abLoop B (alphaBetaNegaMax B d) b ms alpha beta =
        min (ms.foldl (fun a m => max a (-(fullNegamax B d (B.push b m)))) alpha) beta := by
  intro ms
  induction ms with
  | nil =>
    intro b alpha beta _ h2 _
    simp only [abLoop, List.foldl]
    exact (min_eq_left (le_of_lt h2)).symm
  | cons m ms ih =>
    intro b alpha beta h1 h2 h3
    obtain ⟨hL, hU, hE⟩ :=
      hd (B.push b m) (-beta) (-alpha) (by linarith) (by linarith) (by linarith)
    simp only [abLoop, List.foldl]
    set v := fullNegamax B d (B.push b m) with hv
    set r := alphaBetaNegaMax B d (B.push b m) (-beta) (-alpha) with hr
    by_cases hbs : beta ≤ -r
    · simp only [if_pos hbs]
      have hvb : v ≤ -beta := by
        by_contra hcon
        push_neg at hcon
        rcases lt_or_le v (-alpha) with h4 | h4
        · have := hE hcon h4
          rw [← this] at hcon h4
          linarith
        · have := hU h4
          linarith
      have hstep : beta ≤ max alpha (-v) :=
        le_trans (by linarith) (le_max_right alpha (-v))
      have hge : beta ≤ ms.foldl
          (fun a m => max a (-(fullNegamax B d (B.push b m)))) (max alpha (-v)) :=
        le_trans hstep
          (foldl_max_init_le (fun m => -(fullNegamax B d (B.push b m))) ms (max alpha (-v)))
      exact (min_eq_right hge).symm
    · simp only [if_neg hbs]
      push_neg at hbs
      by_cases has : alpha < -r
      · simp only [if_pos has]
        have hrv : r = v := by
          rcases lt_trichotomy v (-beta) with h4 | h4 | h4
          · have := hL (le_of_lt h4)
            linarith
          · have := hL (le_of_eq h4)
            linarith
          · rcases lt_or_le v (-alpha) with h5 | h5
            · exact hE h4 h5
            · have := hU h5
              linarith
        rw [hrv] at has hbs ⊢
        rw [ih b (-v) beta (by linarith) hbs h3]
        rw [max_eq_right (le_of_lt has)]
      · simp only [if_neg has]
        push_neg at has
        have hva : -v ≤ alpha := by
          by_contra hcon
          push_neg at hcon
          rcases lt_trichotomy v (-beta) with h4 | h4 | h4
          · have := hL (le_of_lt h4)
            linarith
          · have := hL (le_of_eq h4)
            linarith
          · rcases lt_or_le v (-alpha) with h5 | h5
            · have := hE h4 h5
              rw [← this] at hcon
              linarith
            · linarith
        rw [ih b alpha beta h1 h2 h3]
        rw [max_eq_left hva]

theorem absound_succ (B : Board Pos Move) (d : Nat) (hd : ABSound B d) :
    ABSound B (d + 1) := by
  intro b alpha beta h1 h2 h3
  have hloop := abLoop_min B d hd (B.legal_moves b) b alpha beta h1 h2 h3
  have hshift : (B.legal_moves b).foldl
      (fun a m => max a (-(fullNegamax B d (B.push b m)))) alpha =
      max alpha ((B.legal_moves b).foldl
        (fun a m => max a (-(fullNegamax B d (B.push b m)))) (-999999)) := by
    conv_lhs => rw [show alpha = max alpha (-999999) from (max_eq_left h1).symm]
    exact foldl_max_shift (fun m => -(fullNegamax B d (B.push b m)))
      (B.legal_moves b) alpha (-999999)
  have hab : alphaBetaNegaMax B (d + 1) b alpha beta =
      min (max alpha (fullNegamax B (d + 1) b)) beta := by
    simp only [alphaBetaNegaMax, fullNegamax]
    rw [hloop, hshift]
  refine ⟨fun hle => ?_, fun hge => ?_, fun hgt hlt => ?_⟩
  · rw [hab, max_eq_left hle]
    exact min_le_left _ _
  · rw [hab]
    exact le_min (le_trans hge (le_max_right _ _)) (le_refl _)
  · rw [hab, max_eq_right (le_of_lt hgt)]
    exact min_eq_left (le_of_lt hlt)

theorem absound_all (B : Board Pos Move) : ∀ d, ABSound B d
  | 0 => absound_zero B
  | d + 1 => absound_succ B d (absound_all B d)

/-- Characterization of BertEngine's root loop: the final best score is the
`max`-fold of the per-move scores over the remaining moves, and the final
move list is exactly the sublist of moves attaining that score (prefixed by
the incoming accumulator when no strict improvement ever occurs). -/
theorem bertLoop_eq (B : Board Pos Move) (b : Pos) :
    ∀ (rest : List Move) (best : ℚ) (ms : List Move),
      bertLoop B b rest best ms =
        (rest.foldl (fun a m => max a (userScore B b m)) best,
          (if rest.foldl (fun a m => max a (userScore B b m)) best = best then ms else [])
            ++ rest.filter (fun m =>
                decide (userScore B b m =
                  rest.foldl (fun a m => max a (userScore B b m)) best))) := by
  intro rest
  induction rest with
  | nil =>
    intro best ms
    simp [bertLoop]
  | cons m rest ih =>
    intro best ms
    simp only [bertLoop, List.foldl]
    by_cases h1 : best < userScore B b m
    · rw [if_pos h1, ih (userScore B b m) [m]]
      simp only [max_eq_right (le_of_lt h1)]
      have hT : ¬ (rest.foldl (fun a m => max a (userScore B b m)) (userScore B b m) = best) := by
        intro hc
        have := foldl_max_init_le (userScore B b) rest (userScore B b m)
        rw [hc] at this
        linarith
      rw [if_neg hT, List.filter_cons]
      by_cases h2 : userScore B b m =
          rest.foldl (fun a m => max a (userScore B b m)) (userScore B b m)
      · rw [if_pos h2.symm, if_pos (decide_eq_true h2)]
        rfl
      · have hne : ¬ (decide (userScore B b m =
            rest.foldl (fun a m => max a (userScore B b m)) (userScore B b m)) = true) := by
          simp only [decide_eq_true_eq]
          exact h2
        rw [if_neg (fun hc => h2 hc.symm), if_neg hne]
    · rw [if_neg h1]
      by_cases h2 : userScore B b m = best
      · rw [if_pos h2, ih best (ms ++ [m])]
        simp only [h2, max_self]
        by_cases h3 : rest.foldl (fun a m => max a (userScore B b m)) best = best
        · rw [if_pos h3, if_pos h3, List.filter_cons,
            if_pos (decide_eq_true (h2.trans h3.symm))]
          simp
        · have hne : ¬ (decide (userScore B b m =
              rest.foldl (fun a m => max a (userScore B b m)) best) = true) := by
            simp only [decide_eq_true_eq]
            intro hc
            exact h3 (hc.symm.trans h2)
          rw [if_neg h3, if_neg h3, List.filter_cons, if_neg hne]
      · rw [if_neg h2, ih best ms]
        have h4 : userScore B b m ≤ best := le_of_not_lt h1
        simp only [max_eq_left h4]
        have h5 : userScore B b m < best := lt_of_le_of_ne h4 h2
        have h6 : best ≤ rest.foldl (fun a m => max a (userScore B b m)) best :=
          foldl_max_init_le (userScore B b) rest best
        have hne : ¬ (decide (userScore B b m =
            rest.foldl (fun a m => max a (userScore B b m)) best) = true) := by
          simp only [decide_eq_true_eq]
          intro hc
          linarith [hc ▸ h5]
        rw [List.filter_cons, if_neg hne]

/-- The final best score of BertEngine's loop is the fold of `max` over the
per-move scores, started from -999999. -/
theorem best_score_eq (B : Board Pos Move) (b : Pos) :
    best_score B b =
      (B.legal_moves b).foldl (fun a m => max a (userScore B b m)) (-999999) := by
  simp only [best_score, bertState, bertLoop_eq]

/-- BertEngine's final `best_moves` is exactly the list of legal moves whose
score equals the final best score, in enumeration order. -/
theorem best_moves_eq (B : Board Pos Move) (b : Pos) :
    best_moves B b = (B.legal_moves b).filter
      (fun m => decide (userScore B b m = best_score B b)) := by
  simp only [best_moves, bertState, bertLoop_eq, best_score_eq, ite_self, List.nil_append]

/-- `alphaBetaNegaMax` at positive depth stays within its `[alpha, beta]`
window. -/
theorem alphaBetaNegaMax_range (B : Board Pos Move) (d : Nat) (b : Pos)
    (alpha beta : ℚ) (h : alpha ≤ beta) :
    alpha ≤ alphaBetaNegaMax B (d + 1) b alpha beta ∧
      alphaBetaNegaMax B (d + 1) b alpha beta ≤ beta :=
  abLoop_range B (alphaBetaNegaMax B d) b (B.legal_moves b) alpha beta h

/-- Every per-move score `user_score` computed by BertEngine is at least
-999999: the depth-3 search stays within the default window and the root
orientation step only negates it. -/
theorem userScore_ge (B : Board Pos Move) (b : Pos) (m : Move) :
    -999999 ≤ userScore B b m := by
  have h3 : alphaBetaNegaMax B 3 (B.push b m) (-999999) 999999 =
      abLoop B (alphaBetaNegaMax B 2) (B.push b m)
        (B.legal_moves (B.push b m)) (-999999) 999999 := rfl
  have h := abLoop_range B (alphaBetaNegaMax B 2) (B.push b m)
    (B.legal_moves (B.push b m)) (-999999) 999999 (by norm_num)
  simp only [userScore, h3]
  by_cases ht : B.turn b = Color.white
  · simp only [if_pos ht]
    exact h.1
  · simp only [if_neg ht]
    linarith [h.2]

/-!
Lemmas about the lexicographic sort used by the low-time fallback.
-/

theorem strLeB_refl : ∀ s : List Char, strLeB s s = true
  | [] => rfl
  | c :: cs => by simp [strLeB, strLeB_refl cs]

theorem strLeB_total : ∀ s t : List Char, strLeB s t = true ∨ strLeB t s = true := by
  intro s
  induction s with
  | nil => intro t; exact Or.inl rfl
  | cons c cs ih =>
    intro t
    cases t with
    | nil => exact Or.inr rfl
    | cons d ds =>
      simp only [strLeB]
      rcases Nat.lt_trichotomy c.toNat d.toNat with h | h | h
      · left
        rw [if_pos h]
      · have h1 : ¬ c.toNat < d.toNat := by omega
        have h2 : ¬ d.toNat < c.toNat := by omega
        rcases ih ds with h3 | h3
        · left
          rw [if_neg h1, if_neg h2]
          exact h3
        · right
          rw [if_neg h2, if_neg h1]
          exact h3
      · right
        rw [if_pos h]

theorem strLeB_trans : ∀ s t u : List Char,
    strLeB s t = true → strLeB t u = true → strLeB s u = true := by
  intro s
  induction s with
  | nil => intro t u _ _; rfl
  | cons c cs ih =>
    intro t u h1 h2
    cases t with
    | nil => simp [strLeB] at h1
    | cons d ds =>
      cases u with
      | nil => simp [strLeB] at h2
      | cons e es =>
        simp only [strLeB] at h1 h2 ⊢
        have hcd : c.toNat ≤ d.toNat := by
          by_contra hco
          push_neg at hco
          rw [if_neg (by omega), if_pos hco] at h1
          exact Bool.noConfusion h1
        have hde : d.toNat ≤ e.toNat := by
          by_contra hco
          push_neg at hco
          rw [if_neg (by omega), if_pos hco] at h2
          exact Bool.noConfusion h2
        by_cases hce : c.toNat < e.toNat
        · rw [if_pos hce]
        · rw [if_neg hce, if_neg (by omega)]
          rw [if_neg (by omega), if_neg (by omega)] at h1
          rw [if_neg (by omega), if_neg (by omega)] at h2
          exact ih ds es h1 h2

theorem keyLe_refl (key : Move → String) (a : Move) : keyLe key a a = true :=
  strLeB_refl _

theorem keyLe_total (key : Move → String) (a b : Move) :
    keyLe key a b = true ∨ keyLe key b a = true :=
  strLeB_total _ _

theorem keyLe_trans (key : Move → String) (a b c : Move)
    (h1 : keyLe key a b = true) (h2 : keyLe key b c = true) : keyLe key a c = true :=
  strLeB_trans _ _ _ h1 h2

theorem mem_insertByKey (key : Move → String) (m : Move) :
    ∀ (l : List Move) (x : Move), x ∈ insertByKey key m l ↔ x = m ∨ x ∈ l := by
  intro l
  induction l with
  | nil => intro x; simp [insertByKey]
  | cons y ys ih =>
    intro x
    simp only [insertByKey]
    by_cases h : keyLe key m y = true
    · rw [if_pos h]
      simp [List.mem_cons]
    · rw [if_neg h]
      simp only [List.mem_cons, ih]
      tauto

theorem mem_sortByKey (key : Move → String) :
    ∀ (l : List Move) (x : Move), x ∈ sortByKey key l ↔ x ∈ l := by
  intro l
  induction l with
  | nil => intro x; simp [sortByKey]
  | cons y ys ih =>
    intro x
    simp only [sortByKey, mem_insertByKey, ih, List.mem_cons]

/-- The head of the key-sorted list is a member of the original list and is
lexicographically ≤ every member. -/
theorem sortByKey_head_min (key : Move → String) :
    ∀ (l : List Move) (m : Move) (t : List Move), sortByKey key l = m :: t →
      m ∈ l ∧ ∀ x ∈ l, keyLe key m x = true := by
  intro l
  induction l with
  | nil => intro m t h; simp [sortByKey] at h
  | cons y ys ih =>
    intro m t h
    simp only [sortByKey] at h
    cases hs : sortByKey key ys with
    | nil =>
      rw [hs] at h
      simp only [insertByKey] at h
      injection h with h1 h2
      rw [← h1]
      refine ⟨List.mem_cons_self _ _, ?_⟩
      intro x hx
      rcases List.mem_cons.mp hx with hx1 | hx2
      · rw [hx1]
        exact keyLe_refl key y
      · exact absurd ((mem_sortByKey key ys x).mpr hx2) (by rw [hs]; simp)
    | cons h0 hs0 =>
      rw [hs] at h
      have ihh := ih h0 hs0 hs
      simp only [insertByKey] at h
      by_cases hk : keyLe key y h0 = true
      · rw [if_pos hk] at h
        injection h with h1 h2
        rw [← h1]
        refine ⟨List.mem_cons_self _ _, ?_⟩
        intro x hx
        rcases List.mem_cons.mp hx with hx1 | hx2
        · rw [hx1]
          exact keyLe_refl key y
        · exact keyLe_trans key y h0 x hk (ihh.2 x hx2)
      · rw [if_neg hk] at h
        injection h with h1 h2
        rw [← h1]
        have hky : keyLe key h0 y = true := by
          rcases keyLe_total key y h0 with hco | hco
          · exact absurd hco hk
          · exact hco
        refine ⟨List.mem_cons_of_mem _ ihh.1, ?_⟩
        intro x hx
        rcases List.mem_cons.mp hx with hx1 | hx2
        · rw [hx1]
          exact hky
        · exact ihh.2 x hx2

/-- Per-color material is between 0 and 344 = 16 · (1+3+3.5+5+9+0) when no
piece count exceeds 16. -/
theorem color_score_bound (B : Board Pos Move) (b : Pos)
    (hb : ∀ p c, B.pieces b p c ≤ 16) (c : Color) :
    (0:ℚ) ≤ PIECE_TYPES.foldl
        (fun acc p => acc + PIECE_VALUES p * (B.pieces b p c : ℚ)) 0 ∧
      PIECE_TYPES.foldl
        (fun acc p => acc + PIECE_VALUES p * (B.pieces b p c : ℚ)) 0 ≤ 344 := by
  have hq : ∀ p, ((B.pieces b p c : ℚ)) ≤ 16 := fun p => by exact_mod_cast hb p c
  have hq0 : ∀ p, (0:ℚ) ≤ (B.pieces b p c : ℚ) := fun p => Nat.cast_nonneg _
  simp only [PIECE_TYPES, PIECE_VALUES, List.foldl]
  constructor <;>
    nlinarith [hq .pawn, hq .knight, hq .bishop, hq .rook, hq .queen, hq .king,
      hq0 .pawn, hq0 .knight, hq0 .bishop, hq0 .rook, hq0 .queen, hq0 .king]

/-- The oriented material term is bounded by ±344 when no piece count
exceeds 16 — in particular every attainable material score is far above the
checkmate scores. -/
theorem material_score_bound (B : Board Pos Move) (b : Pos)
    (hb : ∀ p c, B.pieces b p c ≤ 16) :
    -344 ≤ material_score B b ∧ material_score B b ≤ 344 := by
  obtain ⟨hw0, hw1⟩ := color_score_bound B b hb Color.white
  obtain ⟨hb0, hb1⟩ := color_score_bound B b hb Color.black
  cases ht : B.turn b <;>
    simp only [material_score, ht, colorFactor] <;> push_cast <;>
    constructor <;> nlinarith [hw0, hw1, hb0, hb1]

/-!
Frame lemmas for the heap model: every search only writes freshly allocated
object ids, so every object allocated before the call — the caller's board
in particular — holds exactly its old value afterwards, and the score
computed agrees with the functional model.
-/

theorem abHGo_frame (B : Board Pos Move) (d : Nat)
    (ih : ∀ (σ : Nat → Pos) (f p : Nat) (alpha beta : ℚ), p < f →
      f ≤ (abH B d σ f p alpha beta).2.2 ∧
      (∀ q, q < f → (abH B d σ f p alpha beta).2.1 q = σ q) ∧
      (abH B d σ f p alpha beta).1 = alphaBetaNegaMax B d (σ p) alpha beta) :
    ∀ (ms : List Move) (σ : Nat → Pos) (f p : Nat) (alpha beta : ℚ), p < f →
      f ≤ (abHGo B (abH B d) p ms σ f alpha beta).2.2 ∧
      (∀ q, q < f → (abHGo B (abH B d) p ms σ f alpha beta).2.1 q = σ q) ∧
      (abHGo B (abH B d) p ms σ f alpha beta).1 =
        abLoop B (alphaBetaNegaMax B d) (σ p) ms alpha beta := by
  intro ms
  induction ms with
  | nil =>
    intro σ f p alpha beta hp
    exact ⟨le_refl _, fun q _ => rfl, rfl⟩
  | cons m ms ihm =>
    intro σ f p alpha beta hp
    simp only [abHGo, abLoop]
    set σ₁ := Function.update σ f (σ p) with hσ₁
    set σ₂ := Function.update σ₁ f (B.push (σ₁ f) m) with hσ₂
    have hσ₂q : ∀ q, q < f → σ₂ q = σ q := by
      intro q hq
      rw [hσ₂, hσ₁, Function.update_noteq (Nat.ne_of_lt hq),
        Function.update_noteq (Nat.ne_of_lt hq)]
    have hσ₂f : σ₂ f = B.push (σ p) m := by
      rw [hσ₂, Function.update_same, hσ₁, Function.update_same]
    obtain ⟨hf1, hf2, hf3⟩ := ih σ₂ (f + 1) f (-beta) (-alpha) (Nat.lt_succ_self f)
    set res := abH B d σ₂ (f + 1) f (-beta) (-alpha) with hres
    rw [hσ₂f] at hf3
    have hffin : f ≤ res.2.2 := le_trans (Nat.le_succ f) hf1
    have hframe : ∀ q, q < f → res.2.1 q = σ q := fun q hq =>
      (hf2 q (Nat.lt_succ_of_lt hq)).trans (hσ₂q q hq)
    rw [hf3]
    by_cases hb : beta ≤ -alphaBetaNegaMax B d (B.push (σ p) m) (-beta) (-alpha)
    · rw [if_pos hb, if_pos hb]
      exact ⟨hffin, hframe, rfl⟩
    · rw [if_neg hb, if_neg hb]
      by_cases ha : alpha < -alphaBetaNegaMax B d (B.push (σ p) m) (-beta) (-alpha)
      · rw [if_pos ha, if_pos ha]
        obtain ⟨hg1, hg2, hg3⟩ := ihm res.2.1 res.2.2 p
          (-alphaBetaNegaMax B d (B.push (σ p) m) (-beta) (-alpha)) beta
          (lt_of_lt_of_le hp hffin)
        rw [hframe p hp] at hg3
        exact ⟨le_trans hffin hg1,
          fun q hq => (hg2 q (lt_of_lt_of_le hq hffin)).trans (hframe q hq), hg3⟩
      · rw [if_neg ha, if_neg ha]
        obtain ⟨hg1, hg2, hg3⟩ := ihm res.2.1 res.2.2 p alpha beta (lt_of_lt_of_le hp hffin)
        rw [hframe p hp] at hg3
        exact ⟨le_trans hffin hg1,
          fun q hq => (hg2 q (lt_of_lt_of_le hq hffin)).trans (hframe q hq), hg3⟩

theorem abH_frame (B : Board Pos Move) :
    ∀ (d : Nat) (σ : Nat → Pos) (f p : Nat) (alpha beta : ℚ), p < f →
      f ≤ (abH B d σ f p alpha beta).2.2 ∧
      (∀ q, q < f → (abH B d σ f p alpha beta).2.1 q = σ q) ∧
      (abH B d σ f p alpha beta).1 = alphaBetaNegaMax B d (σ p) alpha beta := by
  intro d
  induction d with
  | zero =>
    intro σ f p alpha beta hp
    exact ⟨le_refl _, fun q _ => rfl, rfl⟩
  | succ d ihd =>
    intro σ f p alpha beta hp
    exact abHGo_frame B d ihd (B.legal_moves (σ p)) σ f p alpha beta hp

theorem bertHGo_frame (B : Board Pos Move) (bp : Nat) :
    ∀ (rest : List Move) (σ : Nat → Pos) (f : Nat) (best : ℚ) (ms : List Move), bp < f →
      f ≤ (bertHGo B bp rest σ f best ms).2.2 ∧
      (∀ q, q < f → (bertHGo B bp rest σ f best ms).2.1 q = σ q) ∧
      (bertHGo B bp rest σ f best ms).1 = bertLoop B (σ bp) rest best ms := by
  intro rest
  induction rest with
  | nil =>
    intro σ f best ms hp
    exact ⟨le_refl _, fun q _ => rfl, rfl⟩
  | cons m rest ihm =>
    intro σ f best ms hp
    simp only [bertHGo, bertLoop]
    set σ₁ := Function.update σ f (σ bp) with hσ₁
    set σ₂ := Function.update σ₁ f (B.push (σ₁ f) m) with hσ₂
    have hσ₂q : ∀ q, q < f → σ₂ q = σ q := by
      intro q hq
      rw [hσ₂, hσ₁, Function.update_noteq (Nat.ne_of_lt hq),
        Function.update_noteq (Nat.ne_of_lt hq)]
    have hσ₂f : σ₂ f = B.push (σ bp) m := by
      rw [hσ₂, Function.update_same, hσ₁, Function.update_same]
    obtain ⟨hf1, hf2, hf3⟩ := abH_frame B 3 σ₂ (f + 1) f (-999999) 999999 (Nat.lt_succ_self f)
    set res := abH B 3 σ₂ (f + 1) f (-999999) 999999 with hres
    rw [hσ₂f] at hf3
    have hffin : f ≤ res.2.2 := le_trans (Nat.le_succ f) hf1
    have hframe : ∀ q, q < f → res.2.1 q = σ q := fun q hq =>
      (hf2 q (Nat.lt_succ_of_lt hq)).trans (hσ₂q q hq)
    rw [hf3, hframe bp hp]
    have huser : (if B.turn (σ bp) = Color.white
        then alphaBetaNegaMax B 3 (B.push (σ bp) m) (-999999) 999999
        else -alphaBetaNegaMax B 3 (B.push (σ bp) m) (-999999) 999999) =
        userScore B (σ bp) m := rfl
    rw [huser]
    by_cases hlt : best < userScore B (σ bp) m
    · rw [if_pos hlt, if_pos hlt]
      obtain ⟨hg1, hg2, hg3⟩ := ihm res.2.1 res.2.2 (userScore B (σ bp) m) [m]
        (lt_of_lt_of_le hp hffin)
      rw [hframe bp hp] at hg3
      exact ⟨le_trans hffin hg1,
        fun q hq => (hg2 q (lt_of_lt_of_le hq hffin)).trans (hframe q hq), hg3⟩
    · rw [if_neg hlt, if_neg hlt]
      by_cases heq : userScore B (σ bp) m = best
      · rw [if_pos heq, if_pos heq]
        obtain ⟨hg1, hg2, hg3⟩ := ihm res.2.1 res.2.2 best (ms ++ [m])
          (lt_of_lt_of_le hp hffin)
        rw [hframe bp hp] at hg3
        exact ⟨le_trans hffin hg1,
          fun q hq => (hg2 q (lt_of_lt_of_le hq hffin)).trans (hframe q hq), hg3⟩
      · rw [if_neg heq, if_neg heq]
        obtain ⟨hg1, hg2, hg3⟩ := ihm res.2.1 res.2.2 best ms (lt_of_lt_of_le hp hffin)
        rw [hframe bp hp] at hg3
        exact ⟨le_trans hffin hg1,
          fun q hq => (hg2 q (lt_of_lt_of_le hq hffin)).trans (hframe q hq), hg3⟩

theorem bertH_frame (B : Board Pos Move) (σ : Nat → Pos) (f p n : Nat) (hp : p < f) :
    (∀ q, q < f → (bertH B σ f p n).2.1 q = σ q) ∧
    (bertH B σ f p n).1 = bertBestMove B (σ p) n := by
  simp only [bertH]
  set σ₀ := Function.update σ f (σ p) with hσ₀
  have hσ₀f : σ₀ f = σ p := by rw [hσ₀, Function.update_same]
  have hσ₀q : ∀ q, q < f → σ₀ q = σ q := by
    intro q hq
    rw [hσ₀, Function.update_noteq (Nat.ne_of_lt hq)]
  rw [hσ₀f]
  obtain ⟨hg1, hg2, hg3⟩ := bertHGo_frame B f (B.legal_moves (σ p)) σ₀ (f + 1)
    (-999999) [] (Nat.lt_succ_self f)
  rw [hσ₀f] at hg3
  set res := bertHGo B f (B.legal_moves (σ p)) σ₀ (f + 1) (-999999) [] with hres
  have hmoves : res.1.2 = best_moves B (σ p) := by
    rw [best_moves, bertState, ← hg3]
  constructor
  · intro q hq
    exact (hg2 q (Nat.lt_succ_of_lt hq)).trans (hσ₀q q hq)
  · rw [hmoves]
    rfl

theorem mem_of_index {α : Type} (l : List α) (n : Nat) (a : α) (h : l[n]? = some a) :
    a ∈ l := by
  obtain ⟨hl, he⟩ := List.getElem?_eq_some.mp h
  exact he ▸ List.getElem_mem _

/-!
The claims.
-/

/-- C1 counterexample: pruning does change the root value.  At `cexB`'s root
(mate in one) with depth 1 and the full-width default bounds, the pruned
search clamps the mating line to beta = 999999, while the unpruned
full-width negamax returns 1000099 (the mated child evaluates to
-999999 - 100, and its negation exceeds the window). -/
theorem c1_pruning_changes_root_value_cex :
    alphaBetaNegaMax cexB 1 false (-999999) 999999 = 999999 ∧
    fullNegamax cexB 1 false = 1000099 ∧
    alphaBetaNegaMax cexB 1 false (-999999) 999999 ≠ fullNegamax cexB 1 false := by
  have h1 : alphaBetaNegaMax cexB 1 false (-999999) 999999 = 999999 := by
    norm_num [alphaBetaNegaMax, abLoop, eval_board, material_score, PIECE_TYPES,
      PIECE_VALUES, colorFactor, cexB]
  have h2 : fullNegamax cexB 1 false = 1000099 := by
    norm_num [fullNegamax, eval_board, material_score, PIECE_TYPES, PIECE_VALUES,
      colorFactor, cexB]
  exact ⟨h1, h2, by rw [h1, h2]; norm_num⟩

/-- C1 (amended): for every position and every depth ≥ 1, the pruned search
invoked with the full-width default bounds returns the unpruned full-width
negamax root value clamped above at beta = 999999: the two agree whenever
the unpruned value does not exceed 999999, and only forced-checkmate lines
(whose leaf value -999999 - 100 lies outside the window) are clamped.  At
depth 0 both are `eval_board` and trivially agree. -/
theorem c1_alphaBeta_clamped_fullNegamax (B : Board Pos Move) (d : Nat) (b : Pos)
    (hd : 1 ≤ d) :
    alphaBetaNegaMax B d b (-999999) 999999 = min (fullNegamax B d b) 999999 := by
  obtain ⟨e, rfl⟩ : ∃ e, d = e + 1 := ⟨d - 1, by omega⟩
  have h := abLoop_min B e (absound_all B e) (B.legal_moves b) b (-999999) 999999
    (le_refl _) (by norm_num) (le_refl _)
  calc alphaBetaNegaMax B (e + 1) b (-999999) 999999
      = abLoop B (alphaBetaNegaMax B e) b (B.legal_moves b) (-999999) 999999 := rfl
    _ = min ((B.legal_moves b).foldl
          (fun a m => max a (-(fullNegamax B e (B.push b m)))) (-999999)) 999999 := h
    _ = min (fullNegamax B (e + 1) b) 999999 := rfl

/-- C1 witness: the clamp theorem applied at depth 1 to `cexB`'s root. -/
theorem c1_alphaBeta_clamped_fullNegamax_witness :
    1 ≤ 1 ∧
    alphaBetaNegaMax cexB 1 false (-999999) 999999 = min (fullNegamax cexB 1 false) 999999 :=
  ⟨le_refl 1, c1_alphaBeta_clamped_fullNegamax cexB 1 false (le_refl 1)⟩

/-- C2 counterexample: in the checkmated position of `cexB` the evaluator
does not return the sentinel -999999: checkmate implies check, so the check
penalty of 100 is also subtracted and the result is -1000099. -/
theorem c2_checkmate_sentinel_cex :
    cexB.is_checkmate true = true ∧
    eval_board cexB true = -1000099 ∧
    eval_board cexB true ≠ -999999 := by
  have h : eval_board cexB true = -1000099 := by
    norm_num [eval_board, material_score, PIECE_TYPES, PIECE_VALUES, colorFactor, cexB]
  exact ⟨rfl, h, by rw [h]; norm_num⟩

/-- C2 (amended): for every checkmated position (in chess, checkmate implies
check), `eval_board` returns -999999 - 100 = -1000099 — the sentinel minus
the check penalty, which is applied whenever the side to move is in check,
mated or not — and this value is still strictly below every attainable
material score (material is within ±344 when every piece count is ≤ 16). -/
theorem c2_eval_checkmated (B : Board Pos Move) (b : Pos)
    (hm : B.is_checkmate b = true) (hc : B.is_check b = true) :
    eval_board B b = -1000099 ∧
    ∀ b2 : Pos, (∀ p c, B.pieces b2 p c ≤ 16) →
      eval_board B b < material_score B b2 := by
  have he : eval_board B b = -1000099 := by
    simp only [eval_board, hm, hc]
    norm_num
  refine ⟨he, fun b2 hb2 => ?_⟩
  obtain ⟨hlow, _⟩ := material_score_bound B b2 hb2
  rw [he]
  linarith

/-- C2 witness: the amended theorem applied at `cexB`'s mated position. -/
theorem c2_eval_checkmated_witness :
    cexB.is_checkmate true = true ∧ cexB.is_check true = true ∧
    (eval_board cexB true = -1000099 ∧
      ∀ b2 : Bool, (∀ p c, cexB.pieces b2 p c ≤ 16) →
        eval_board cexB true < material_score cexB b2) :=
  ⟨rfl, rfl, c2_eval_checkmated cexB true rfl rfl⟩

/-- C3: BertEngine does not negate the child search result: it uses the
child-oriented score unchanged when White is to move at the root (`score if
board.turn == chess.WHITE else -score`), negating only for Black.  At
`cexB`'s root — White to move, whose single move leads to a position with no
legal replies, searched value -999999 — the score compared is -999999
itself, not the re-oriented value +999999 the claim requires. -/
theorem c3_orientation_bug :
    cexB.turn false = Color.white ∧
    userScore cexB false () =
      alphaBetaNegaMax cexB 3 (cexB.push false ()) (-999999) 999999 ∧
    userScore cexB false () ≠
      -alphaBetaNegaMax cexB 3 (cexB.push false ()) (-999999) 999999 := by
  have h1 : alphaBetaNegaMax cexB 3 (cexB.push false ()) (-999999) 999999 = -999999 := rfl
  have h2 : userScore cexB false () = -999999 := rfl
  refine ⟨rfl, by rw [h1, h2], ?_⟩
  rw [h1, h2]
  norm_num

/-- C4: on a position with at least one legal move, BertEngine's final
`best_moves` is nonempty and is exactly the list of legal moves attaining
the maximal `user_score` (so ties are all retained, in enumeration order,
duplicate-free whenever the legal-move list is); the returned move —
`random.choice` modelled by an arbitrary index reduced modulo the list
length, uniform over the list for a uniform index — is always a member of
that maximal set and attains the maximum, and every index below the list
length selects the corresponding maximal-score move. -/
theorem c4_best_moves_spec (B : Board Pos Move) (b : Pos) (h : B.legal_moves b ≠ []) :
    best_moves B b ≠ [] ∧
    best_moves B b = (B.legal_moves b).filter
      (fun m => decide (userScore B b m = best_score B b)) ∧
    (∀ m ∈ B.legal_moves b, userScore B b m ≤ best_score B b) ∧
    ((B.legal_moves b).Nodup → (best_moves B b).Nodup) ∧
    (∀ n m, bertBestMove B b n = some m →
      m ∈ best_moves B b ∧ userScore B b m = best_score B b) ∧
    (∀ i, i < (best_moves B b).length → bertBestMove B b i = (best_moves B b)[i]?) := by
  have hfilter := best_moves_eq B b
  have hscore := best_score_eq B b
  have hex : ∃ m ∈ B.legal_moves b, userScore B b m = best_score B b := by
    rcases foldl_max_eq_init_or_mem (userScore B b) (B.legal_moves b) (-999999)
      with hini | ⟨m, hm, he⟩
    · obtain ⟨m, hm⟩ := List.exists_mem_of_ne_nil _ h
      have h1 : userScore B b m ≤ best_score B b := by
        rw [hscore]
        exact foldl_max_elem_le (userScore B b) _ _ m hm
      have h2 : best_score B b ≤ userScore B b m := by
        rw [hscore, hini]
        exact userScore_ge B b m
      exact ⟨m, hm, le_antisymm h1 h2⟩
    · exact ⟨m, hm, by rw [hscore, he]⟩
  obtain ⟨m0, hm0, hs0⟩ := hex
  refine ⟨?_, hfilter, ?_, ?_, ?_, ?_⟩
  · rw [hfilter]
    exact List.ne_nil_of_mem (List.mem_filter.mpr ⟨hm0, decide_eq_true hs0⟩)
  · intro m hm
    rw [hscore]
    exact foldl_max_elem_le (userScore B b) _ _ m hm
  · intro hd
    rw [hfilter]
    exact hd.filter _
  · intro n m hm
    have hmem : m ∈ best_moves B b := mem_of_index _ _ _ hm
    have hfm := hfilter ▸ hmem
    exact ⟨hmem, of_decide_eq_true (List.mem_filter.mp hfm).2⟩
  · intro i hi
    simp only [bertBestMove, Nat.mod_eq_of_lt hi]

/-- C4 witness: at `bertB`'s root, which has the two legal moves 0 and 1. -/
theorem c4_best_moves_spec_witness :
    bertB.legal_moves 0 ≠ [] ∧ best_moves bertB 0 ≠ [] ∧
    best_moves bertB 0 = (bertB.legal_moves 0).filter
      (fun m => decide (userScore bertB 0 m = best_score bertB 0)) :=
  ⟨by decide, (c4_best_moves_spec bertB 0 (by decide)).1,
    (c4_best_moves_spec bertB 0 (by decide)).2.1⟩

/-- C5: at `bertB`'s root the chosen move (move 1) is a pawn move according
to the rules engine, yet the cache is not cleared: the source tests
`best_move.drop == chess.PAWN`, and `drop` — the crazyhouse drop piece —
is None for every ordinary move, pawn moves included. -/
theorem c5_cache_not_cleared_bug :
    bertBestMove bertB 0 0 = some 1 ∧
    bertB.is_pawn_move 1 = true ∧
    bertB.drop 1 = none ∧
    cacheClearedAfter bertB 0 0 = false :=
  ⟨rfl, rfl, rfl, rfl⟩

/-- C6 counterexample: BertEngine ignores a supplied non-empty root-move
restriction: restricted to the single move 0 it still returns move 1
(the restricting line of the source is commented out). -/
theorem c6_bert_ignores_restriction_cex :
    bertSearchFull bertB 0 (some [0]) 0 = some 1 ∧ (1 : Nat) ∉ [(0 : Nat)] :=
  ⟨rfl, by decide⟩

/-- C6 (amended): ComboEngine confines every returned move to the supplied
restriction list (in both the random and the deterministic branch), and to
the legal moves when no restriction is supplied; BertEngine ignores the
restriction parameter entirely, behaving as if it were absent. -/
theorem c6_confinement (B : Board Pos Move) (b : Pos) (tl : TimeLimit) (n : Nat) :
    (∀ (l : List Move) (m : Move), comboSearch B b tl (some l) n = some m → m ∈ l) ∧
    (∀ m : Move, comboSearch B b tl none n = some m → m ∈ B.legal_moves b) ∧
    (∀ rm : Option (List Move), bertSearchFull B b rm n = bertBestMove B b n) := by
  have key : ∀ (rm : Option (List Move)) (m : Move),
      comboSearch B b tl rm n = some m → m ∈ possibleMoves B b rm := by
    intro rm m hm
    simp only [comboSearch] at hm
    by_cases hc : (10 : ℚ) <
        ((myTimeInc B b tl).1 : ℚ) / 60 + ((myTimeInc B b tl).2 : ℚ)
    · rw [if_pos hc] at hm
      exact mem_of_index _ _ _ hm
    · rw [if_neg hc] at hm
      cases hs : sortByKey B.uci (possibleMoves B b rm) with
      | nil =>
        rw [hs] at hm
        simp at hm
      | cons m1 t =>
        rw [hs] at hm
        have hm1 : m1 = m := by simpa using hm
        exact hm1 ▸ (sortByKey_head_min B.uci (possibleMoves B b rm) m1 t hs).1
  exact ⟨fun l m hm => key (some l) m hm, fun m hm => key none m hm, fun _ => rfl⟩

/-- C6 witness: ComboEngine restricted to [1, 0] at `bertB`'s root in the
low-time branch returns move 0, a member of the restriction. -/
theorem c6_confinement_witness :
    comboSearch bertB 0 tl600 (some [1, 0]) 0 = some 0 ∧ (0 : Nat) ∈ [(1 : Nat), 0] := by
  have hm : comboSearch bertB 0 tl600 (some [1, 0]) 0 = some 0 := by
    rw [comboSearch]
    norm_num [myTimeInc, tl600]
    decide
  exact ⟨hm, (c6_confinement bertB 0 tl600 0).1 [1, 0] 0 hm⟩

/-- C7: ComboEngine takes the plenty-of-time branch — a random eligible move
(index model) — exactly when my_time / 60 + my_inc > 10, i.e. my_time +
60·my_inc > 600 over the integers; otherwise, including exactly at the
threshold, it returns an eligible move that is lexicographically least by
UCI text among all eligible moves. -/
theorem c7_time_threshold (B : Board Pos Move) (b : Pos) (tl : TimeLimit)
    (rm : Option (List Move)) (n : Nat) :
    (600 < (myTimeInc B b tl).1 + 60 * (myTimeInc B b tl).2 →
      comboSearch B b tl rm n =
        (possibleMoves B b rm)[n % (possibleMoves B b rm).length]?) ∧
    ((myTimeInc B b tl).1 + 60 * (myTimeInc B b tl).2 ≤ 600 →
      ∀ m, comboSearch B b tl rm n = some m →
        m ∈ possibleMoves B b rm ∧
        ∀ m2 ∈ possibleMoves B b rm, keyLe B.uci m m2 = true) := by
  have hiff : ((10 : ℚ) <
      ((myTimeInc B b tl).1 : ℚ) / 60 + ((myTimeInc B b tl).2 : ℚ)) ↔
      600 < (myTimeInc B b tl).1 + 60 * (myTimeInc B b tl).2 := by
    constructor
    · intro h
      have h2 : (600 : ℚ) < ((myTimeInc B b tl).1 : ℚ) + 60 * ((myTimeInc B b tl).2 : ℚ) := by
        linarith
      exact_mod_cast h2
    · intro h
      have h2 : (600 : ℚ) < ((myTimeInc B b tl).1 : ℚ) + 60 * ((myTimeInc B b tl).2 : ℚ) := by
        exact_mod_cast h
      linarith
  constructor
  · intro hgt
    simp only [comboSearch]
    rw [if_pos (hiff.mpr hgt)]
  · intro hle m hm
    simp only [comboSearch] at hm
    rw [if_neg (fun hc => absurd (hiff.mp hc) (not_lt.mpr hle))] at hm
    cases hs : sortByKey B.uci (possibleMoves B b rm) with
    | nil =>
      rw [hs] at hm
      simp at hm
    | cons m1 t =>
      rw [hs] at hm
      have hm1 : m1 = m := by simpa using hm
      obtain ⟨hmem, hmin⟩ := sortByKey_head_min B.uci (possibleMoves B b rm) m1 t hs
      exact hm1 ▸ ⟨hmem, hmin⟩

/-- C7 witness: with 601 seconds of fixed time the random branch fires; with
exactly 600 seconds (the threshold) the deterministic fallback fires and
returns move 0, whose UCI text is least. -/
theorem c7_time_threshold_witness :
    (600 < (myTimeInc bertB 0 tl601).1 + 60 * (myTimeInc bertB 0 tl601).2 ∧
      comboSearch bertB 0 tl601 none 1 =
        (possibleMoves bertB 0 none)[1 % (possibleMoves bertB 0 none).length]?) ∧
    ((myTimeInc bertB 0 tl600).1 + 60 * (myTimeInc bertB 0 tl600).2 ≤ 600 ∧
      comboSearch bertB 0 tl600 none 0 = some 0 ∧
      (0 : Nat) ∈ possibleMoves bertB 0 none ∧
      ∀ m2 ∈ possibleMoves bertB 0 none, keyLe bertB.uci 0 m2 = true) := by
  have h600 : comboSearch bertB 0 tl600 none 0 = some 0 := by
    rw [comboSearch]
    norm_num [myTimeInc, tl600]
    decide
  obtain ⟨hmem, hmin⟩ := (c7_time_threshold bertB 0 tl600 none 0).2 (by decide) 0 h600
  exact ⟨⟨by decide, (c7_time_threshold bertB 0 tl601 none 1).1 (by decide)⟩,
    by decide, h600, hmem, hmin⟩

/-- C8: on a position with no legal moves (and no restriction supplying
alternatives) every decision entry point yields no move — modelling the
IndexError that `random.choice` or `moves[0]` raises on an empty sequence —
rather than producing one: BertEngine, RandomMove, and ComboEngine all
fail. -/
theorem c8_no_legal_moves_error (B : Board Pos Move) (b : Pos) (n : Nat)
    (h : B.legal_moves b = []) :
    bertBestMove B b n = none ∧ randomMoveSearch B b n = none ∧
    ∀ tl : TimeLimit, comboSearch B b tl none n = none := by
  have hbm : best_moves B b = [] := by
    rw [best_moves_eq, h]
    rfl
  refine ⟨?_, ?_, ?_⟩
  · simp [bertBestMove, hbm]
  · simp [randomMoveSearch, h]
  · intro tl
    simp only [comboSearch, possibleMoves, h]
    by_cases hc : (10 : ℚ) <
        ((myTimeInc B b tl).1 : ℚ) / 60 + ((myTimeInc B b tl).2 : ℚ)
    · rw [if_pos hc]
      rfl
    · rw [if_neg hc]
      rfl

/-- C8 witness: position 1 of `bertB` has no legal moves and all three entry
points return none. -/
theorem c8_no_legal_moves_error_witness :
    bertB.legal_moves 1 = [] ∧
    (bertBestMove bertB 1 0 = none ∧ randomMoveSearch bertB 1 0 = none ∧
      ∀ tl : TimeLimit, comboSearch bertB 1 tl none 0 = none) :=
  ⟨by decide, c8_no_legal_moves_error bertB 1 0 (by decide)⟩

/-- C9: frame property of the imperative layer.  In the store model, after
`alphaBetaNegaMax` (any depth and bounds) or `BertEngine.search` runs on the
board with id `p`, every object id allocated before the call — `p` in
particular — holds exactly the value it held before: all exploration happens
on freshly allocated deep copies.  Moreover the computed score/move agrees
with the functional model. -/
theorem c9_search_frame (B : Board Pos Move) (σ : Nat → Pos) (f p : Nat) (hp : p < f) :
    (∀ (d : Nat) (alpha beta : ℚ),
      (∀ q, q < f → (abH B d σ f p alpha beta).2.1 q = σ q) ∧
      (abH B d σ f p alpha beta).1 = alphaBetaNegaMax B d (σ p) alpha beta) ∧
    (∀ n : Nat,
      (∀ q, q < f → (bertH B σ f p n).2.1 q = σ q) ∧
      (bertH B σ f p n).1 = bertBestMove B (σ p) n) := by
  constructor
  · intro d alpha beta
    obtain ⟨_, h2, h3⟩ := abH_frame B d σ f p alpha beta hp
    exact ⟨h2, h3⟩
  · intro n
    exact bertH_frame B σ f p n hp

/-- C9 witness: a one-object store holding `bertB`'s root position. -/
theorem c9_search_frame_witness :
    (0 : Nat) < 1 ∧
    ((∀ (d : Nat) (alpha beta : ℚ),
      (∀ q, q < 1 → (abH bertB d (fun _ => 0) 1 0 alpha beta).2.1 q = (fun _ => (0:Nat)) q) ∧
      (abH bertB d (fun _ => 0) 1 0 alpha beta).1 =
        alphaBetaNegaMax bertB d ((fun _ => (0:Nat)) 0) alpha beta) ∧
    (∀ n : Nat,
      (∀ q, q < 1 → (bertH bertB (fun _ => 0) 1 0 n).2.1 q = (fun _ => (0:Nat)) q) ∧
      (bertH bertB (fun _ => 0) 1 0 n).1 = bertBestMove bertB ((fun _ => (0:Nat)) 0) n)) :=
  ⟨Nat.zero_lt_one, c9_search_frame bertB (fun _ => 0) 1 0 Nat.zero_lt_one⟩

/-- C10: the legacy `negamax` never returns a score at depth ≥ 1 on a
position with at least one legal move: the undo step `board.pop(move)`
passes an argument to `Board.pop`, which accepts none, so a TypeError is
raised on the first explored move (or the same error surfaces from the
recursive call, which also receives the running maximum as its beta bound,
as encoded in `negamaxLoop`); either way the result is an error, never a
score. -/
theorem c10_negamax_always_errors (B : Board Pos Move) (d : Nat) (b : Pos)
    (alpha beta : ℚ) (hd : 1 ≤ d) (hm : B.legal_moves b ≠ []) :
    ∃ e, negamax B d b alpha beta = Except.error e := by
  obtain ⟨k, rfl⟩ : ∃ k, d = k + 1 := ⟨d - 1, by omega⟩
  show ∃ e, negamaxLoop B (negamax B k) b (B.legal_moves b) (-999999) alpha beta =
    Except.error e
  cases hL : B.legal_moves b with
  | nil => exact absurd hL hm
  | cons m rest =>
    simp only [negamaxLoop]
    cases hr : negamax B k (B.push b m) (-beta) (-999999) with
    | error e => exact ⟨e, rfl⟩
    | ok v =>
      exact ⟨"TypeError: pop takes 1 positional argument but 2 were given", rfl⟩

/-- C10 witness: at `cexB`'s root with its one legal move, depth 1. -/
theorem c10_negamax_always_errors_witness :
    (1 ≤ 1 ∧ cexB.legal_moves false ≠ []) ∧
    ∃ e, negamax cexB 1 false (-999999) 999999 = Except.error e :=
  ⟨⟨le_refl 1, by decide⟩,
    c10_negamax_always_errors cexB 1 false (-999999) 999999 (le_refl 1) (by decide)⟩

end ChessBot
